import Mathlib

/-
Verification of the subspace-alignment domain-adaptation adapters in
src/skada/_subspace.py: SubspaceAlignmentAdapter, TransferComponentAnalysisAdapter
and TransferJointMatchingAdapter.

Feature matrices are embedded as lists of rows over ℚ (numpy float arrays,
with exact arithmetic in place of floating point).  External numerical
routines that the source calls but does not define (sklearn PCA bases,
eigendecompositions, the kernel function) are parameters of the embedding;
the code of this repository that the adapters call is translated directly.
-/

/-- A sample: one row of a feature matrix. -/
abbrev Row := List ℚ

/-- A feature or kernel matrix, stored as its list of rows. -/
abbrev Mat := List (List ℚ)

/-- Dot product of two rows (`np.dot` on vectors). -/
def dot (u v : Row) : ℚ := (List.zipWith (fun a b => a * b) u v).sum

/-- Number of columns of a matrix (length of its first row). -/
def numCols (B : Mat) : Nat := (B.headD []).length

/-- Column `j` of a matrix. -/
def matColumn (B : Mat) (j : Nat) : Row := B.map (fun row => row.getD j 0)

/-- Row-vector times matrix, `r @ B`. -/
def rowMulMat (r : Row) (B : Mat) : Row :=
  (List.range (numCols B)).map (fun j => dot r (matColumn B j))

/-- Matrix product `A @ B`, one output row per row of `A`. -/
def matMul (A B : Mat) : Mat := A.map (fun r => rowMulMat r B)

/-- Entry `(i, j)` of a matrix stored as rows. -/
def entry (M : Mat) (i j : Nat) : ℚ := (M.getD i []).getD j 0

/-- The linear kernel `k(u, v) = u · v` (`pairwise_kernels(metric="linear")`),
used to instantiate concrete examples. -/
def linKernel (u v : Row) : ℚ := dot u v

/-- Row `i` of `pairwise_kernels(A, B)`: the kernel of `r` against every row
of `B`. -/
def kernelRow (k : Row → Row → ℚ) (r : Row) (B : Mat) : Row := B.map (k r)

/-- The combined kernel matrix
`np.block([[Kss, Kst], [Kst.T, Ktt]])` assembled by
`TransferComponentAnalysisAdapter.fit` (src/skada/_subspace.py:269-272) and
`TransferJointMatchingAdapter._get_kernel_matrix` (src/skada/_subspace.py:490-495).
The bottom-left block is the structural transpose of `Kst`: its entry
`(j, i)` is `Kst[i][j] = k S_i T_j`, not a recomputation `k T_j S_i`. -/
def blockKernelRows (k : Row → Row → ℚ) (S T : Mat) : Mat :=
  S.map (fun s => kernelRow k s S ++ kernelRow k s T)
    ++ T.map (fun t => S.map (fun s => k s t) ++ kernelRow k t T)

/-- Modelled from the spec: `source_target_split` (skada.utils, not under src/)
partitions the rows of `X` into the source block and the target block
according to the boolean source mask, preserving relative order within each
block. -/
def stSplit {α : Type} : List α → List Bool → List α × List α
  | [], _ => ([], [])
  | _ :: _, [] => ([], [])
  | x :: xs, b :: bs =>
    let p := stSplit xs bs
    if b then (x :: p.1, p.2) else (p.1, x :: p.2)

/-- Modelled from the spec: `source_target_merge` (skada.utils, not under src/)
recombines a source block and a target block into one list, putting each row
back at the position its domain label occupies in the mask (original row
order is restored). -/
def stMerge {α : Type} : List α → List α → List Bool → List α
  | _, _, [] => []
  | S, T, b :: bs =>
    if b then
      match S with
      | [] => []
      | s :: S2 => s :: stMerge S2 T bs
    else
      match T with
      | [] => []
      | t :: T2 => t :: stMerge S T2 bs

/-- A fitted sklearn PCA, abstracted by its fitted mean and components;
`transform(X) = (X - mean_) @ components_.T`. -/
structure PCAModel where
  mean : Row
  components : Mat

/-- `PCA.transform` on one row: subtract the mean, then dot with each
component. -/
def pcaTransformRow (p : PCAModel) (r : Row) : Row :=
  p.components.map (fun c => dot (List.zipWith (fun a b => a - b) r p.mean) c)

/-- The fitted state of `SubspaceAlignmentAdapter`: `pca_source_`,
`pca_target_` and the alignment map `M_`. -/
structure SAState where
  pcaS : PCAModel
  pcaT : PCAModel
  M : Mat

/-- `M_ = pca_source_.components_ @ pca_target_.components_.T`
(src/skada/_subspace.py:150): entry `(i, j)` is the dot product of source
component `i` with target component `j`. -/
def saM (p q : PCAModel) : Mat :=
  p.components.map (fun si => q.components.map (fun tj => dot si tj))

/-- The transform `SubspaceAlignmentAdapter.adapt` applies to a source row
(src/skada/_subspace.py:104): project through the source basis, then `M_`. -/
def saSourceRow (st : SAState) (r : Row) : Row :=
  rowMulMat (pcaTransformRow st.pcaS r) st.M

/-- The transform `SubspaceAlignmentAdapter.adapt` applies to a target row
(src/skada/_subspace.py:106): project through the target basis, then `M_`
(the code multiplies the target block by `M_` as well). -/
def saTargetRow (st : SAState) (r : Row) : Row :=
  rowMulMat (pcaTransformRow st.pcaT r) st.M

/-- `SubspaceAlignmentAdapter.adapt` (src/skada/_subspace.py:95-111): split by
domain, transform each nonempty block, merge back. -/
def saAdapt (st : SAState) (X : Mat) (mask : List Bool) : Mat :=
  let p := stSplit X mask
  let Xs := if p.1.isEmpty then p.1 else p.1.map (saSourceRow st)
  let Xt := if p.2.isEmpty then p.2 else p.2.map (saTargetRow st)
  stMerge Xs Xt mask

/-- Models the validation of scikit-learn `PCA(n_components).fit(B)` (external
library): it raises an invalid-configuration error exactly when
`n_components > min(n_samples, n_features)` of the block it is fitted on. -/
def pcaFitRaises (nc rows cols : Nat) : Prop := min rows cols < nc

/-- `SubspaceAlignmentAdapter.fit` (src/skada/_subspace.py:136-150) fits one
PCA on the source block and one on the target block, so it raises exactly
when either per-block PCA validation fails. -/
def saFitRaises (ns nt d nc : Nat) : Prop :=
  pcaFitRaises nc ns d ∨ pcaFitRaises nc nt d

/-- The fitted state of `TransferComponentAnalysisAdapter`: stored blocks
`X_source_`, `X_target_`, kernel matrix `K_` and eigenvectors `eigvects_`. -/
structure TCAState where
  Xs : Mat
  Xt : Mat
  K : Mat
  E : Mat

/-- The per-row transform of `TransferComponentAnalysisAdapter.adapt`
(src/skada/_subspace.py:333-336): kernel of the row against the stored
source block and target block, concatenated, then projected through
`eigvects_`. -/
def tcaRow (k : Row → Row → ℚ) (st : TCAState) (r : Row) : Row :=
  rowMulMat (kernelRow k r st.Xs ++ kernelRow k r st.Xt) st.E

/-- `TransferComponentAnalysisAdapter.adapt` (src/skada/_subspace.py:320-337):
if the split blocks equal the stored fit blocks, reuse `K_` and return
`(K_ @ eigvects_)[:len(X)]`; otherwise recompute the cross kernels of the
whole input against the stored blocks and project through `eigvects_`. -/
def tcaAdapt (k : Row → Row → ℚ) (st : TCAState) (X : Mat) (mask : List Bool) : Mat :=
  let p := stSplit X mask
  if p.1 = st.Xs ∧ p.2 = st.Xt then
    (matMul st.K st.E).take X.length
  else
    (matMul (X.map (fun r => kernelRow k r st.Xs ++ kernelRow k r st.Xt)) st.E).take X.length

/-- The fitted state of `TransferJointMatchingAdapter`: stored blocks and
the projection `A_`. -/
structure TJMState where
  Xs : Mat
  Xt : Mat
  A : Mat

/-- The per-row transform of `TransferJointMatchingAdapter.adapt`
(src/skada/_subspace.py:477-480). -/
def tjmRow (k : Row → Row → ℚ) (st : TJMState) (r : Row) : Row :=
  rowMulMat (kernelRow k r st.Xs ++ kernelRow k r st.Xt) st.A

/-- `TransferJointMatchingAdapter.adapt` (src/skada/_subspace.py:463-481):
if the split blocks equal the stored fit blocks, rebuild the block kernel
matrix of the stored blocks and return `K @ A_`; otherwise use the cross
kernels of the whole input against the stored blocks. -/
def tjmAdapt (k : Row → Row → ℚ) (st : TJMState) (X : Mat) (mask : List Bool) : Mat :=
  let p := stSplit X mask
  if p.1 = st.Xs ∧ p.2 = st.Xt then
    matMul (blockKernelRows k p.1 p.2) st.A
  else
    matMul (X.map (fun r => kernelRow k r st.Xs ++ kernelRow k r st.Xt)) st.A

/-- `EPS_eigval = 1e-10` (src/skada/_subspace.py:538). -/
def EPS_eigval : ℚ := 1 / 10 ^ 10

/-- The early-stop test of `TransferJointMatchingAdapter.fit`
(src/skada/_subspace.py:582):
`last_loss == 0 or abs(last_loss - loss_total) / last_loss < tol`.
The division is by the signed `last_loss`, not by its absolute value. -/
def tjmStop (last loss tol : ℚ) : Prop :=
  last = 0 ∨ |last - loss| / last < tol

instance (last loss tol : ℚ) : Decidable (tjmStop last loss tol) := by
  unfold tjmStop; infer_instance

/-- The number of iterations the `fit` loop of
`TransferJointMatchingAdapter` executes (src/skada/_subspace.py:539-585),
given the sequence of per-iteration `loss_total` values (one per available
iteration, so the list has length `max_iter`) and the running `last_loss`
(initialized by the caller to `-2 * tol`, line 539).  Each iteration runs to
its end and then either breaks or records its loss and continues. -/
def tjmIterCount (tol : ℚ) : ℚ → List ℚ → Nat
  | _, [] => 0
  | last, l :: rest =>
    if tjmStop last l tol then 1 else 1 + tjmIterCount tol l rest

/-- The per-row reweighting values of the `G` update in
`TransferJointMatchingAdapter.fit` (src/skada/_subspace.py:558-560):
`G = zeros(n); G[A_norms != 0] = 1 / (2 * A_norms[A_norms != 0] + EPS_eigval)`,
where `ν` abstracts the row-norm function `np.linalg.norm(·, axis=1)`. -/
def tjmGRaw (ν : Row → ℚ) (A : Mat) : List ℚ :=
  A.map (fun r => if ν r = 0 then 0 else 1 / (2 * ν r + EPS_eigval))

/-- The diagonal of `G` after the target overwrite
`G[~source_mask] = 1` (src/skada/_subspace.py:561): source entries keep the
reweighting value, non-source entries are forced to `1`. -/
def tjmG (ν : Row → ℚ) (A : Mat) (mask : List Bool) : List ℚ :=
  List.zipWith (fun g b => if b then g else 1) (tjmGRaw ν A) mask

/-- A concrete row-norm oracle (first entry of the row), used only to
instantiate the reweighting theorem on a concrete input. -/
def normHead (r : Row) : ℚ := r.getD 0 0

/-- The sort key of `TransferComponentAnalysisAdapter.fit`
(src/skada/_subspace.py:294): the absolute value of eigenvalue `i`. -/
def keyAbs (eig : List ℚ) (i : Nat) : ℚ := |eig.getD i 0|

/-- Ascending comparison of indices by key, ties broken by index order: the
order realized by a stable ascending argsort over distinct indices. -/
def idxLe (key : Nat → ℚ) (i j : Nat) : Prop :=
  key i < key j ∨ (key i = key j ∧ i ≤ j)

instance (key : Nat → ℚ) : DecidableRel (idxLe key) := fun i j => by
  unfold idxLe; infer_instance

instance (key : Nat → ℚ) : IsTotal Nat (idxLe key) := by
  constructor
  intro a b
  rcases lt_trichotomy (key a) (key b) with h | h | h
  · exact Or.inl (Or.inl h)
  · rcases Nat.le_total a b with hab | hab
    · exact Or.inl (Or.inr ⟨h, hab⟩)
    · exact Or.inr (Or.inr ⟨h.symm, hab⟩)
  · exact Or.inr (Or.inl h)

instance (key : Nat → ℚ) : IsTrans Nat (idxLe key) := by
  constructor
  intro a b c hab hbc
  rcases hab with hab | ⟨hab, hab2⟩
  · rcases hbc with hbc | ⟨hbc, _⟩
    · exact Or.inl (hab.trans hbc)
    · exact Or.inl (hbc ▸ hab)
  · rcases hbc with hbc | ⟨hbc, hbc2⟩
    · exact Or.inl (hab ▸ hbc)
    · exact Or.inr ⟨hab.trans hbc, hab2.trans hbc2⟩

/-- `np.argsort(np.abs(eigvals))`: the indices `0, …, n-1` sorted ascending
by absolute eigenvalue.  Modelled as a stable sort (ties keep original index
order), realized as sorting by the lexicographic order `idxLe`. -/
def argsortAbsAsc (eig : List ℚ) : List Nat :=
  List.insertionSort (idxLe (keyAbs eig)) (List.range eig.length)

/-- `selected_components = np.argsort(np.abs(eigvals))[::-1][:n_components]`
(src/skada/_subspace.py:294). -/
def selectedComponents (eig : List ℚ) (k : Nat) : List Nat :=
  (argsortAbsAsc eig).reverse.take k

/-- A fitted TCA state over 1 stored source row `[0]` and 1 stored target
row `[1]`, with the linear kernel: `K_` is the block kernel matrix of the
stored blocks and `eigvects_` is the second standard basis column. -/
def tcaStateInterleaved : TCAState := ⟨[[0]], [[1]], [[0, 0], [0, 1]], [[0], [1]]⟩

/-- A fitted TCA state over stored source row `[1]` and target row `[2]`
with the linear kernel. -/
def tcaStateBlockOrdered : TCAState := ⟨[[1]], [[2]], [[1, 2], [2, 4]], [[1], [0]]⟩

/-- A small fitted TJM state over the same blocks. -/
def tjmStateSmall : TJMState := ⟨[[1]], [[2]], [[1], [0]]⟩

/-- A fitted SA state with identity one-component bases. -/
def saStateId : SAState := ⟨⟨[0], [[1]]⟩, ⟨[0], [[1]]⟩, [[1]]⟩

/-- A fitted SA state on 1-dimensional data: source basis `[[-1]]`, target
basis `[[1]]`, hence `M_ = [[-1]]`. -/
def saStateFlip : SAState := ⟨⟨[0], [[-1]]⟩, ⟨[0], [[1]]⟩, [[-1]]⟩

/-- The dot product is symmetric (entrywise products commute). -/
theorem dot_comm : ∀ u v : Row, dot u v = dot v u
  | [], v => by cases v <;> simp [dot]
  | a :: u, [] => by simp [dot]
  | a :: u, b :: v => by
    have ih := dot_comm u v
    simp only [dot, List.zipWith_cons_cons, List.sum_cons] at ih ⊢
    rw [mul_comm, ih]

/-- Splitting a list whose mask has matching length partitions all its rows. -/
theorem stSplit_length {α : Type} :
    ∀ (X : List α) (mask : List Bool), mask.length = X.length →
      (stSplit X mask).1.length + (stSplit X mask).2.length = X.length := by
  intro X
  induction X with
  | nil => intro mask _; simp [stSplit]
  | cons x xs ih =>
    intro mask hlen
    cases mask with
    | nil => simp at hlen
    | cons b bs =>
      simp only [List.length_cons, Nat.succ.injEq] at hlen
      have := ih bs hlen
      by_cases hb : b <;> simp [stSplit, hb] <;> omega

/-- Merging the per-block images of a split reproduces the input order:
row `i` of the merged result is the image of row `i` of the input under the
transform its domain label selects. -/
theorem stMerge_split_map {α β : Type} (f g : α → β) :
    ∀ (mask : List Bool) (X : List α), mask.length = X.length →
      stMerge ((stSplit X mask).1.map f) ((stSplit X mask).2.map g) mask
        = List.zipWith (fun b r => if b then f r else g r) mask X := by
  intro mask
  induction mask with
  | nil => intro X _; simp [stMerge]
  | cons b bs ih =>
    intro X hlen
    cases X with
    | nil => simp at hlen
    | cons x xs =>
      simp only [List.length_cons, Nat.succ.injEq] at hlen
      have := ih xs hlen
      by_cases hb : b
      · subst hb
        simp [stSplit, stMerge, this]
      · have hb2 : b = false := by simpa using hb
        subst hb2
        simp [stSplit, stMerge, this]

/-- The empty-block guard of `adapt` is equivalent to mapping over the block:
an empty block is left unchanged, and mapping over it changes nothing. -/
theorem if_isEmpty_map {α β : Type} (l : List α) (f : α → β) (l2 : List β)
    (h : l2 = l.map f) : (if l.isEmpty then l2 else l.map f) = l.map f := by
  cases l <;> simp_all

/-- `saAdapt` in closed form: the merged output is the input with each row
sent through the transform selected by its domain label. -/
theorem saAdapt_zipWith (st : SAState) (X : Mat) (mask : List Bool)
    (hlen : mask.length = X.length) :
    saAdapt st X mask
      = List.zipWith (fun b r => if b then saSourceRow st r else saTargetRow st r) mask X := by
  unfold saAdapt
  have h1 : (if (stSplit X mask).1.isEmpty then (stSplit X mask).1
      else (stSplit X mask).1.map (saSourceRow st)) = (stSplit X mask).1.map (saSourceRow st) := by
    cases h : (stSplit X mask).1 <;> simp
  have h2 : (if (stSplit X mask).2.isEmpty then (stSplit X mask).2
      else (stSplit X mask).2.map (saTargetRow st)) = (stSplit X mask).2.map (saTargetRow st) := by
    cases h : (stSplit X mask).2 <;> simp
  simp only [h1, h2]
  exact stMerge_split_map _ _ mask X hlen

/-- `zipWith` against an all-`false` mask applies the second transform to
every row. -/
theorem zipWith_mask_false {α β : Type} (f g : α → β) :
    ∀ (X : List α), List.zipWith (fun b r => if b then f r else g r)
      (List.replicate X.length false) X = X.map g := by
  intro X
  induction X with
  | nil => simp
  | cons x xs ih => simp [List.replicate, ih]

/-- `zipWith` against an all-`true` mask applies the first transform to
every row. -/
theorem zipWith_mask_true {α β : Type} (f g : α → β) :
    ∀ (X : List α), List.zipWith (fun b r => if b then f r else g r)
      (List.replicate X.length true) X = X.map f := by
  intro X
  induction X with
  | nil => simp
  | cons x xs ih => simp [List.replicate, ih]

/-- With a symmetric kernel, the block kernel matrix is exactly the per-row
kernel transform applied to the concatenated blocks. -/
theorem blockKernelRows_eq_map (k : Row → Row → ℚ) (S T : Mat)
    (hsym : ∀ x y, k x y = k y x) :
    blockKernelRows k S T
      = (S ++ T).map (fun r => kernelRow k r S ++ kernelRow k r T) := by
  unfold blockKernelRows
  rw [List.map_append]
  congr 1
  apply List.map_congr_left
  intro t _
  congr 1
  apply List.map_congr_left
  intro s _
  exact hsym s t

/-- The block kernel matrix has one row per combined sample. -/
theorem length_blockKernelRows (k : Row → Row → ℚ) (S T : Mat) :
    (blockKernelRows k S T).length = S.length + T.length := by
  simp [blockKernelRows]

/-- `matMul` of a mapped matrix is the map of the per-row products. -/
theorem matMul_map (A : Mat) (f : Row → Row) (B : Mat) :
    matMul (A.map f) B = A.map (fun r => rowMulMat (f r) B) := by
  simp [matMul, List.map_map, Function.comp]

/-- `matMul` has one output row per row of its left factor. -/
theorem length_matMul (A B : Mat) : (matMul A B).length = A.length := by
  simp [matMul]

/-- C1: False of the code as written — `fit` initializes `last_loss = -2 * tol`
(src/skada/_subspace.py:539), and the stop test divides by the signed
`last_loss`; since `|last_loss - loss| / last_loss ≤ 0 < tol` whenever
`last_loss < 0`, the early-stopping test fires at the end of the first
iteration for every `tol > 0` and every first-iteration loss, so the loop
always executes exactly one iteration. -/
theorem tjm_fit_stops_after_first_iteration (tol l : ℚ) (rest : List ℚ)
    (htol : 0 < tol) :
    tjmIterCount tol (-(2 * tol)) (l :: rest) = 1 := by
  have hneg : -(2 * tol) < 0 := by linarith
  have hq : |(-(2 * tol)) - l| / (-(2 * tol)) ≤ 0 :=
    div_nonpos_iff.mpr (Or.inl ⟨abs_nonneg _, hneg.le⟩)
  have hstop : tjmStop (-(2 * tol)) l tol := Or.inr (lt_of_le_of_lt hq htol)
  simp [tjmIterCount, hstop]

/-- Witness for C1: with `tol = 0.01` and first-iteration loss `5`, the fit
loop stops after exactly one iteration. -/
theorem tjm_fit_stops_after_first_iteration_witness :
    0 < (1 / 100 : ℚ) ∧ tjmIterCount (1 / 100) (-(2 * (1 / 100))) [5] = 1 :=
  ⟨by norm_num, tjm_fit_stops_after_first_iteration (1 / 100) 5 [] (by norm_num)⟩

/-- C4 (amended): `SubspaceAlignmentAdapter.fit` raises the
invalid-configuration error iff `n_components` exceeds
`min(n_s, n_t, n_features)` — the PCA bound of the smaller *block*, not of
the combined input. -/
theorem sa_fit_raises_iff_blockwise_bound (ns nt d nc : Nat) :
    saFitRaises ns nt d nc ↔ min (min ns nt) d < nc := by
  simp only [saFitRaises, pcaFitRaises]
  omega

/-- Witness for C4: a concrete instance of the amended equivalence. -/
theorem sa_fit_raises_iff_blockwise_bound_witness :
    saFitRaises 1 3 3 2 ↔ min (min 1 3) 3 < 2 :=
  sa_fit_raises_iff_blockwise_bound 1 3 3 2

/-- Counterexample for C4 as stated: with 2 source rows, 2 target rows, 5
features and `n_components = 4 = min(n_samples, n_features)` of the combined
input, the claim says fit must not raise, but the source-block PCA
(2 samples) raises. -/
theorem sa_fit_raises_combined_bound_counterexample :
    saFitRaises 2 2 5 4 ∧ ¬ min (2 + 2) 5 < 4 := by
  constructor
  · exact Or.inl (by norm_num [pcaFitRaises])
  · norm_num

/-- C9: if the input's source block (resp. target block) is empty — an
all-target (resp. all-source) mask — the empty block passes through with no
transform applied and the output is exactly the transformed nonempty block,
merged back in order. -/
theorem sa_adapt_empty_block (st : SAState) (X : Mat) (n : Nat)
    (h : n = X.length) :
    saAdapt st X (List.replicate n false) = X.map (saTargetRow st)
      ∧ saAdapt st X (List.replicate n true) = X.map (saSourceRow st) := by
  subst h
  constructor
  · rw [saAdapt_zipWith st X _ (by simp), zipWith_mask_false]
  · rw [saAdapt_zipWith st X _ (by simp), zipWith_mask_true]

/-- Witness for C9 at a concrete fitted state and input. -/
theorem sa_adapt_empty_block_witness :
    saAdapt saStateId [[1]] (List.replicate 1 false)
        = ([[1]] : Mat).map (saTargetRow saStateId)
      ∧ saAdapt saStateId [[1]] (List.replicate 1 true)
        = ([[1]] : Mat).map (saSourceRow saStateId) :=
  sa_adapt_empty_block saStateId [[1]] 1 rfl

/-- C8: the combined kernel matrix assembled from `Kss`, `Kst`, `Kst.T`,
`Ktt` is exactly symmetric across its cross blocks: entry `(i, n_s + j)`
equals entry `(n_s + j, i)` for every source index `i` and target index `j`,
because the bottom-left block is the structural transpose of `Kst`. -/
theorem block_kernel_cross_symmetry (k : Row → Row → ℚ) (S T : Mat)
    (i j : Nat) (hi : i < S.length) (hj : j < T.length) :
    entry (blockKernelRows k S T) i (S.length + j)
      = entry (blockKernelRows k S T) (S.length + j) i := by
  have e1 : entry (blockKernelRows k S T) i (S.length + j) = k S[i] T[j] := by
    unfold entry blockKernelRows
    rw [List.getD_eq_getElem _ _
      (show i < _ by simp [kernelRow]; omega)]
    rw [List.getElem_append_left (by simpa using hi)]
    rw [List.getElem_map]
    rw [List.getD_eq_getElem _ _
      (show S.length + j < _ by simp [kernelRow]; omega)]
    rw [List.getElem_append_right (by simp [kernelRow])]
    simp [kernelRow]
  have e2 : entry (blockKernelRows k S T) (S.length + j) i = k S[i] T[j] := by
    unfold entry blockKernelRows
    rw [List.getD_eq_getElem _ _
      (show S.length + j < _ by simp [kernelRow]; omega)]
    rw [List.getElem_append_right (by simp)]
    rw [List.getElem_map]
    rw [List.getD_eq_getElem _ _
      (show i < _ by simp [kernelRow]; omega)]
    rw [List.getElem_append_left (by simpa using hi)]
    simp
  rw [e1, e2]

/-- Witness for C8 at a concrete kernel and concrete blocks. -/
theorem block_kernel_cross_symmetry_witness :
    entry (blockKernelRows linKernel [[1]] [[2]]) 0 (([[1]] : Mat).length + 0)
      = entry (blockKernelRows linKernel [[1]] [[2]]) (([[1]] : Mat).length + 0) 0 :=
  block_kernel_cross_symmetry linKernel [[1]] [[2]] 0 0 (by norm_num) (by norm_num)

/-- C6: after the `G` update of each fit iteration, the diagonal entry at a
target-row index is `1`; at a source-row index it is
`1 / (2 * norm + EPS_eigval)` whenever the row norm is nonzero, and `0`
(never a division by zero: the denominator is positive) when the row norm is
zero, so every entry is a well-defined finite value. -/
theorem tjm_G_update_entries (ν : Row → ℚ) (A : Mat) (mask : List Bool)
    (i : Nat) (hA : A.length = mask.length) (hi : i < mask.length)
    (hν : 0 ≤ ν (A.getD i [])) :
    (mask.getD i false = false → (tjmG ν A mask).getD i 0 = 1)
      ∧ (mask.getD i false = true → ν (A.getD i []) ≠ 0 →
          (tjmG ν A mask).getD i 0 = 1 / (2 * ν (A.getD i []) + EPS_eigval))
      ∧ (mask.getD i false = true → ν (A.getD i []) = 0 →
          (tjmG ν A mask).getD i 0 = 0)
      ∧ 0 < 2 * ν (A.getD i []) + EPS_eigval := by
  have hiA : i < A.length := by omega
  have hEps : 0 < EPS_eigval := by norm_num [EPS_eigval]
  have hmaskD : mask.getD i false = mask[i] := List.getD_eq_getElem mask false hi
  have hAD : A.getD i [] = A[i] := List.getD_eq_getElem A [] hiA
  have hiG : i < (tjmG ν A mask).length := by
    simp only [tjmG, tjmGRaw, List.length_zipWith, List.length_map]
    omega
  have hG : (tjmG ν A mask).getD i 0
      = if mask[i] = true then
          (if ν A[i] = 0 then 0 else 1 / (2 * ν A[i] + EPS_eigval))
        else 1 := by
    rw [List.getD_eq_getElem _ _ hiG]
    simp only [tjmG, tjmGRaw, List.getElem_zipWith, List.getElem_map]
  rw [hAD] at hν
  rw [hmaskD, hAD, hG]
  refine ⟨?_, ?_, ?_, by linarith⟩
  · intro hm
    simp [hm]
  · intro hm hne
    simp [hm, hne]
  · intro hm h0
    simp [hm, h0]

/-- Witness for C6 at a concrete norm oracle, projection matrix and mask. -/
theorem tjm_G_update_entries_witness :
    (([true] : List Bool).getD 0 false = false →
        (tjmG normHead [[2]] [true]).getD 0 0 = 1)
      ∧ (([true] : List Bool).getD 0 false = true →
          normHead (([[2]] : Mat).getD 0 []) ≠ 0 →
          (tjmG normHead [[2]] [true]).getD 0 0
            = 1 / (2 * normHead (([[2]] : Mat).getD 0 []) + EPS_eigval))
      ∧ (([true] : List Bool).getD 0 false = true →
          normHead (([[2]] : Mat).getD 0 []) = 0 →
          (tjmG normHead [[2]] [true]).getD 0 0 = 0)
      ∧ 0 < 2 * normHead (([[2]] : Mat).getD 0 []) + EPS_eigval :=
  tjm_G_update_entries normHead [[2]] [true] 0 rfl (by norm_num)
    (by norm_num [normHead])

/-- C5: for a fitted TCA state (`K_` is the block kernel matrix of the
stored blocks), `adapt` returns exactly `K_ @ eigvects_` (the fit-time
embedding, the `[:len(X)]` truncation being a no-op) when the split blocks
equal the stored blocks, and otherwise the concatenated cross kernels of
the input rows against the stored blocks, projected through `eigvects_`. -/
theorem tca_adapt_branches (k : Row → Row → ℚ) (st : TCAState) (X : Mat)
    (mask : List Bool) (hlen : mask.length = X.length)
    (hK : st.K = blockKernelRows k st.Xs st.Xt) :
    tcaAdapt k st X mask
      = if stSplit X mask = (st.Xs, st.Xt) then matMul st.K st.E
        else X.map (tcaRow k st) := by
  by_cases hc : stSplit X mask = (st.Xs, st.Xt)
  · rw [if_pos hc]
    have h1 : (stSplit X mask).1 = st.Xs := by rw [hc]
    have h2 : (stSplit X mask).2 = st.Xt := by rw [hc]
    have hXlen : X.length = st.Xs.length + st.Xt.length := by
      have hsl := stSplit_length X mask hlen
      rw [h1, h2] at hsl
      omega
    have hKlen : (matMul st.K st.E).length = X.length := by
      rw [length_matMul, hK, length_blockKernelRows, hXlen]
    simp only [tcaAdapt]
    rw [if_pos ⟨h1, h2⟩, ← hKlen, List.take_length]
  · rw [if_neg hc]
    have hcond : ¬((stSplit X mask).1 = st.Xs ∧ (stSplit X mask).2 = st.Xt) := by
      intro hand
      exact hc (Prod.ext hand.1 hand.2)
    simp only [tcaAdapt]
    rw [if_neg hcond, matMul_map, List.take_of_length_le (by simp)]
    rfl

/-- Witness for C5 at a concrete fitted state whose input matches the
stored blocks. -/
theorem tca_adapt_branches_witness :
    tcaAdapt linKernel tcaStateBlockOrdered [[1], [2]] [true, false]
      = if stSplit ([[1], [2]] : Mat) [true, false]
            = (tcaStateBlockOrdered.Xs, tcaStateBlockOrdered.Xt)
        then matMul tcaStateBlockOrdered.K tcaStateBlockOrdered.E
        else ([[1], [2]] : Mat).map (tcaRow linKernel tcaStateBlockOrdered) :=
  tca_adapt_branches linKernel tcaStateBlockOrdered [[1], [2]] [true, false] rfl
    (by norm_num [tcaStateBlockOrdered, blockKernelRows, kernelRow, linKernel, dot])

/-- C2 (amended): output row `i` is the transform of input row `i` for
SubspaceAlignment always; for TCA and TJM it is whenever the recompute
branch runs (split blocks differ from the stored fit blocks) or the input
is block-ordered (all source rows before all target rows, so matching the
stored blocks forces `X = Xs ++ Xt`).  In the cached branch on an
interleaved input the rows come out in block order instead (see the
counterexample). -/
theorem adapt_row_order_amended :
    (∀ (st : SAState) (X : Mat) (mask : List Bool), mask.length = X.length →
        saAdapt st X mask
          = List.zipWith (fun b r => if b then saSourceRow st r else saTargetRow st r) mask X)
    ∧ (∀ (k : Row → Row → ℚ) (st : TCAState) (X : Mat) (mask : List Bool),
        (∀ x y, k x y = k y x) →
        st.K = blockKernelRows k st.Xs st.Xt →
        (stSplit X mask = (st.Xs, st.Xt) → X = st.Xs ++ st.Xt) →
        tcaAdapt k st X mask = X.map (tcaRow k st))
    ∧ (∀ (k : Row → Row → ℚ) (st : TJMState) (X : Mat) (mask : List Bool),
        (∀ x y, k x y = k y x) →
        (stSplit X mask = (st.Xs, st.Xt) → X = st.Xs ++ st.Xt) →
        tjmAdapt k st X mask = X.map (tjmRow k st)) := by
  refine ⟨fun st X mask hlen => saAdapt_zipWith st X mask hlen, ?_, ?_⟩
  · intro k st X mask hsym hK hblk
    by_cases hc : stSplit X mask = (st.Xs, st.Xt)
    · have hX : X = st.Xs ++ st.Xt := hblk hc
      simp only [tcaAdapt]
      rw [if_pos ⟨by rw [hc], by rw [hc]⟩]
      rw [hK, blockKernelRows_eq_map k _ _ hsym, ← hX, matMul_map]
      rw [List.take_of_length_le (by simp)]
      rfl
    · simp only [tcaAdapt]
      rw [if_neg (fun hand => hc (Prod.ext hand.1 hand.2))]
      rw [matMul_map, List.take_of_length_le (by simp)]
      rfl
  · intro k st X mask hsym hblk
    by_cases hc : stSplit X mask = (st.Xs, st.Xt)
    · have hX : X = st.Xs ++ st.Xt := hblk hc
      simp only [tjmAdapt]
      rw [if_pos ⟨by rw [hc], by rw [hc]⟩]
      rw [show (stSplit X mask).1 = st.Xs by rw [hc],
        show (stSplit X mask).2 = st.Xt by rw [hc]]
      rw [blockKernelRows_eq_map k _ _ hsym, ← hX, matMul_map]
      rfl
    · simp only [tjmAdapt]
      rw [if_neg (fun hand => hc (Prod.ext hand.1 hand.2))]
      rw [matMul_map]
      rfl

/-- Witness for C2 at concrete fitted states and block-ordered inputs. -/
theorem adapt_row_order_amended_witness :
    saAdapt saStateId [[2]] [true]
        = List.zipWith (fun b r => if b then saSourceRow saStateId r else saTargetRow saStateId r)
            [true] [[2]]
      ∧ tcaAdapt linKernel tcaStateBlockOrdered [[1], [2]] [true, false]
          = ([[1], [2]] : Mat).map (tcaRow linKernel tcaStateBlockOrdered)
      ∧ tjmAdapt linKernel tjmStateSmall [[1], [2]] [true, false]
          = ([[1], [2]] : Mat).map (tjmRow linKernel tjmStateSmall) :=
  ⟨adapt_row_order_amended.1 saStateId [[2]] [true] rfl,
    adapt_row_order_amended.2.1 linKernel tcaStateBlockOrdered [[1], [2]] [true, false]
      (fun x y => dot_comm x y)
      (by norm_num [tcaStateBlockOrdered, blockKernelRows, kernelRow, linKernel, dot])
      (fun _ => rfl),
    adapt_row_order_amended.2.2 linKernel tjmStateSmall [[1], [2]] [true, false]
      (fun x y => dot_comm x y) (fun _ => rfl)⟩

/-- Counterexample for C2 as stated: a fitted TCA state (with the linear
kernel, `K_` consistent with the stored blocks) and an interleaved input
(target row first) whose blocks match the stored blocks by value: the
cached branch returns the rows in source-first block order, which differs
from the per-row transform of the input in its original order. -/
theorem adapt_row_order_counterexample :
    tcaStateInterleaved.K
        = blockKernelRows linKernel tcaStateInterleaved.Xs tcaStateInterleaved.Xt
      ∧ tcaAdapt linKernel tcaStateInterleaved [[1], [0]] [false, true]
          ≠ ([[1], [0]] : Mat).map (tcaRow linKernel tcaStateInterleaved) := by
  constructor
  · norm_num [tcaStateInterleaved, blockKernelRows, kernelRow, linKernel, dot]
  · norm_num [tcaAdapt, tcaStateInterleaved, stSplit, matMul, rowMulMat, numCols,
      matColumn, dot, kernelRow, linKernel, tcaRow, List.range_succ, List.range_zero]

/-- The reversed stable argsort is pairwise descending for the lexicographic
index order. -/
theorem argsort_rev_pairwise (key : Nat → ℚ) (n : Nat) :
    List.Pairwise (fun a b => idxLe key b a)
      ((List.insertionSort (idxLe key) (List.range n)).reverse) := by
  rw [List.pairwise_reverse]
  exact List.sorted_insertionSort (idxLe key) (List.range n)

/-- The reversed stable argsort has no duplicate indices. -/
theorem argsort_rev_nodup (key : Nat → ℚ) (n : Nat) :
    ((List.insertionSort (idxLe key) (List.range n)).reverse).Nodup := by
  rw [List.nodup_reverse]
  exact ((List.perm_insertionSort (idxLe key) (List.range n)).nodup_iff).mpr
    (List.nodup_range n)

/-- C7 (amended): the selection keeps `min n_components n` indices, ordered
descending by absolute eigenvalue with ties broken by *reverse* original
index order (the ascending stable argsort is reversed); consequently the
selected absolute magnitudes are non-increasing, and the selection is a
top-`k` set: every unselected index has absolute eigenvalue at most that of
every selected index. -/
theorem tca_selected_components_sorted (eig : List ℚ) (k : Nat) :
    (selectedComponents eig k).length = min k eig.length
    ∧ List.Pairwise (fun a b => keyAbs eig b < keyAbs eig a
        ∨ (keyAbs eig b = keyAbs eig a ∧ b < a)) (selectedComponents eig k)
    ∧ List.Pairwise (fun a b => keyAbs eig b ≤ keyAbs eig a) (selectedComponents eig k)
    ∧ ∀ b < eig.length, b ∉ selectedComponents eig k →
        ∀ a ∈ selectedComponents eig k, keyAbs eig b ≤ keyAbs eig a := by
  simp only [selectedComponents, argsortAbsAsc]
  have hpair := argsort_rev_pairwise (keyAbs eig) eig.length
  have htake : List.Pairwise (fun a b => idxLe (keyAbs eig) b a)
      ((List.insertionSort (idxLe (keyAbs eig)) (List.range eig.length)).reverse.take k) :=
    List.Pairwise.sublist (List.take_sublist _ _) hpair
  have hnd : ((List.insertionSort (idxLe (keyAbs eig)) (List.range eig.length)).reverse.take k).Nodup :=
    List.Nodup.sublist (List.take_sublist _ _) (argsort_rev_nodup (keyAbs eig) eig.length)
  refine ⟨?_, ?_, ?_, ?_⟩
  · simp [List.length_take, List.length_insertionSort]
  · refine (htake.and hnd).imp ?_
    intro a b hab
    rcases hab.1 with h | ⟨he, hle⟩
    · exact Or.inl h
    · exact Or.inr ⟨he, Nat.lt_of_le_of_ne hle (fun hh => hab.2 hh.symm)⟩
  · refine htake.imp ?_
    intro a b hab
    rcases hab with h | ⟨he, _⟩
    · exact le_of_lt h
    · exact le_of_eq he
  · intro b hb hbn a ha
    have hbL : b ∈ (List.insertionSort (idxLe (keyAbs eig)) (List.range eig.length)).reverse := by
      rw [List.mem_reverse]
      exact ((List.perm_insertionSort _ _).mem_iff).mpr (List.mem_range.mpr hb)
    have hsplit := List.take_append_drop k
      ((List.insertionSort (idxLe (keyAbs eig)) (List.range eig.length)).reverse)
    rw [← hsplit] at hbL
    have hbd : b ∈ (List.insertionSort (idxLe (keyAbs eig)) (List.range eig.length)).reverse.drop k := by
      rcases List.mem_append.mp hbL with h | h
      · exact absurd h hbn
      · exact h
    have hp2 := hpair
    rw [← hsplit] at hp2
    have hba := (List.pairwise_append.mp hp2).2.2 a ha b hbd
    rcases hba with h | ⟨he, _⟩
    · exact le_of_lt h
    · exact le_of_eq he

/-- Witness for C7: with eigenvalues `[3, 2]` and one component, the
selection length is as stated and the unselected index `1` has absolute
eigenvalue at most that of the selected index `0`. -/
theorem tca_selected_components_sorted_witness :
    (selectedComponents [(3 : ℚ), 2] 1).length = min 1 ([(3 : ℚ), 2]).length
      ∧ keyAbs [(3 : ℚ), 2] 1 ≤ keyAbs [(3 : ℚ), 2] 0 := by
  have hsel : selectedComponents [(3 : ℚ), 2] 1 = [0] := by
    norm_num [selectedComponents, argsortAbsAsc, idxLe, keyAbs, List.range_succ]
  exact ⟨(tca_selected_components_sorted [(3 : ℚ), 2] 1).1,
    (tca_selected_components_sorted [(3 : ℚ), 2] 1).2.2.2 1 (by norm_num)
      (by rw [hsel]; simp) 0 (by rw [hsel]; simp)⟩

/-- Counterexample for C7 as stated: with the tied eigenvalue list `[1, 1]`
and two components, the code's selection is `[1, 0]` — the tie is broken by
*reverse* original index order — not `[0, 1]` as "ties broken by original
index order" demands. -/
theorem tca_selected_components_tie_counterexample :
    selectedComponents [(1 : ℚ), 1] 2 = [1, 0]
      ∧ ([1, 0] : List Nat) ≠ [0, 1] := by
  constructor
  · norm_num [selectedComponents, argsortAbsAsc, idxLe, keyAbs, List.range_succ]
  · simp

/-- C3: evaluation of the code at a concrete fitted state exhibiting the
divergence — `adapt` multiplies the *target* block by `M_` as well
(src/skada/_subspace.py:106): with target basis `[[1]]`, means `0` and
`M_ = [[-1]]` (consistent with `fit`, third conjunct), the target row `[3]`
comes out as `[-3]`, whereas projecting through the target basis only — as
the claim states — gives `[3]`. -/
theorem sa_adapt_target_multiplied_by_M :
    saAdapt saStateFlip [[3]] [false] = [[-3]]
      ∧ ([[3]] : Mat).map (pcaTransformRow saStateFlip.pcaT) = [[3]]
      ∧ saStateFlip.M = saM saStateFlip.pcaS saStateFlip.pcaT := by
  refine ⟨?_, ?_, ?_⟩
  · norm_num [saAdapt, saStateFlip, stSplit, stMerge, saTargetRow, saSourceRow,
      pcaTransformRow, rowMulMat, numCols, matColumn, dot,
      List.range_succ, List.range_zero]
  · norm_num [pcaTransformRow, saStateFlip, dot]
  · norm_num [saM, saStateFlip, dot]
